import Mathlib

/-!
# Verification of the session-setup task lifecycle
(`gui_plugin/core/dbms/DbSessionSetupTask.py`)

This file gives a shallow embedding of `DbSessionSetupTask` and
`DbPingHandlerTask` and proves properties of the option/data
backup-and-restore bookkeeping and of the keep-alive pinger lifecycle.

Modelling decisions:
* Python dictionary *values* are modelled by `PyVal` (`none` for Python
  `None`, integers, strings).
* The session's `connection_options` and `data` dictionaries are modelled
  as maps `Key → Option PyVal` (`Option.none` = key absent); only their
  key/value content is ever relevant to the properties below.
* The task's four snapshot dictionaries (`_input_options`,
  `_output_options`, `_input_data`, `_output_data`) are iterated over by
  `reset`, so they are modelled as association lists in insertion order
  with Python-dict update semantics (`dictSet`).
* The session and the task are merged into one state record `TaskState`,
  since the task holds the only reference to the session relevant here.
-/

/-- A Python value stored in `connection_options` or `session.data`. -/
inductive PyVal where
  | none : PyVal
  | num : Int → PyVal
  | str : String → PyVal
deriving DecidableEq

abbrev Key := String

/-- A total-function map modelling a Python dict's key/value content. -/
abbrev PyMap := Key → Option PyVal

/-- `m[k] = v` on a Python dict: update the binding of `k`. -/
def mapSet (m : PyMap) (k : Key) (v : PyVal) : PyMap :=
  fun q => if q = k then some v else m q

/-- `m.pop(k)` on a Python dict: drop the binding of `k`. -/
def mapRemove (m : PyMap) (k : Key) : PyMap :=
  fun q => if q = k then none else m q

/-- Build a `PyMap` from an explicit list of bindings (first wins). -/
def mapOf (l : List (Key × PyVal)) : PyMap :=
  fun q => (l.find? (fun kv => kv.1 = q)).map (fun kv => kv.2)

/-- `d[k] = v` on a Python dict kept as an association list in insertion
order: update in place when present, append when absent. -/
def dictSet : List (Key × PyVal) → Key → PyVal → List (Key × PyVal)
  | [], k, v => [(k, v)]
  | kv :: rest, k, v =>
      if kv.1 = k then (k, v) :: rest else kv :: dictSet rest k v

/-- The keys of an association list, in order. -/
def keysOf (l : List (Key × PyVal)) : List Key :=
  l.map (fun kv => kv.1)

/-- The value of the *last* binding of `k` in the association list, the
binding a left fold of assignments would leave in force. -/
def lastLookup : List (Key × PyVal) → Key → Option PyVal
  | [], _ => none
  | kv :: rest, k =>
      match lastLookup rest k with
      | some v => some v
      | none => if kv.1 = k then some kv.2 else none

/-- `overlay o fb` is `o` when set, else the fallback `fb`. -/
def overlay (o : Option PyVal) (fb : Option PyVal) : Option PyVal :=
  match o with
  | some v => some v
  | none => fb

/-- The state of a `DbSessionSetupTask` together with the session
dictionaries it mutates: `self._session.connection_options`,
`self._session.data`, and the four snapshot dicts of the task. -/
structure TaskState where
  connection_options : PyMap
  data : PyMap
  input_options : List (Key × PyVal)
  output_options : List (Key × PyVal)
  input_data : List (Key × PyVal)
  output_data : List (Key × PyVal)

/-- A freshly constructed task (`__init__`) on a session whose
`connection_options` content is `conn` and whose `data` content is `d`:
all four snapshot dicts start empty. -/
def initTask (conn d : PyMap) : TaskState :=
  { connection_options := conn
    data := d
    input_options := []
    output_options := []
    input_data := []
    output_data := [] }

/-- `DbSessionSetupTask.has_option`: membership in `connection_options`. -/
def has_option (t : TaskState) (option : Key) : Bool :=
  (t.connection_options option).isSome

/-- `DbSessionSetupTask.extract_option(option, default_value)`: when the
option is present, pop it from `connection_options` and record the popped
value in `_input_options`; otherwise return the default and change
nothing. Returns the pair (returned value, new state). -/
def extract_option (t : TaskState) (option : Key) (default_value : PyVal) :
    PyVal × TaskState :=
  match t.connection_options option with
  | some v =>
      (v,
        { t with
            connection_options := mapRemove t.connection_options option
            input_options := dictSet t.input_options option v })
  | none => (default_value, t)

/-- `DbSessionSetupTask.define_option(option, value)`: first
`extract_option(option)` (backing the option up if it exists), then set
the new value in `connection_options` and record it in `_output_options`. -/
def define_option (t : TaskState) (option : Key) (value : PyVal) : TaskState :=
  let t1 := (extract_option t option PyVal.none).2
  { t1 with
      connection_options := mapSet t1.connection_options option value
      output_options := dictSet t1.output_options option value }

/-- `DbSessionSetupTask.define_data(option, value)`: archive the prior
value in `_input_data` when the key is present in `session.data`, then set
the new value in `session.data` and record it in `_output_data`. -/
def define_data (t : TaskState) (option : Key) (value : PyVal) : TaskState :=
  let t1 :=
    match t.data option with
    | some old => { t with input_data := dictSet t.input_data option old }
    | none => t
  { t1 with
      data := mapSet t1.data option value
      output_data := dictSet t1.output_data option value }

/-- The first loop of `reset`: for each key of an output snapshot dict (in
insertion order), pop it from the map when present. -/
def popAll (outs : List (Key × PyVal)) (m : PyMap) : PyMap :=
  outs.foldl (fun acc kv => if (acc kv.1).isSome then mapRemove acc kv.1 else acc) m

/-- The second loop of `reset`: for each binding of an input snapshot dict
(in insertion order), re-assign it into the map. -/
def setAll (ins : List (Key × PyVal)) (m : PyMap) : PyMap :=
  ins.foldl (fun acc kv => mapSet acc kv.1 kv.2) m

/-- `DbSessionSetupTask.reset`: remove every `_output_options` key from
`connection_options`, restore every `_input_options` binding, do the same
for `session.data` with `_output_data`/`_input_data`, then clear
`_input_options` and `_output_options`.  (The source clears only the two
option snapshots; the data snapshots are left as they are.) -/
def reset (t : TaskState) : TaskState :=
  { t with
      connection_options := setAll t.input_options (popAll t.output_options t.connection_options)
      data := setAll t.input_data (popAll t.output_data t.data)
      input_options := []
      output_options := [] }

/-- One public mutating call of the base task. -/
inductive Call where
  | extract (option : Key) (default_value : PyVal)
  | defineO (option : Key) (value : PyVal)
  | defineD (option : Key) (value : PyVal)

/-- The key a call operates on. -/
def Call.key : Call → Key
  | Call.extract k _ => k
  | Call.defineO k _ => k
  | Call.defineD k _ => k

/-- Whether the call is one of the two option calls (`extract_option`,
`define_option`) rather than `define_data`. -/
def Call.isOpt : Call → Bool
  | Call.defineD _ _ => false
  | _ => true

/-- Run one call against the task state. -/
def applyCall (t : TaskState) : Call → TaskState
  | Call.extract k d => (extract_option t k d).2
  | Call.defineO k v => define_option t k v
  | Call.defineD k v => define_data t k v

/-- Run a sequence of calls, in order. -/
def applyCalls (t : TaskState) (cs : List Call) : TaskState :=
  cs.foldl applyCall t

/-- `true` when no call of the sequence uses key `k`. -/
def avoids (cs : List Call) (k : Key) : Bool :=
  cs.all (fun c => Call.key c != k)

/-- The pointwise content of `connection_options` after `reset`: the last
archived `_input_options` binding wins; otherwise a key recorded in
`_output_options` is gone; otherwise the pre-reset binding stands. -/
def restoreAt (t : TaskState) (k : Key) : Option PyVal :=
  overlay (lastLookup t.input_options k)
    (if k ∈ keysOf t.output_options then none else t.connection_options k)

/-- Invariant of the round-trip proof: at key `k`, running the two
`reset` loops on the current state restores the initial
`connection_options` content `M`. -/
def RESinv (M : PyMap) (t : TaskState) (k : Key) : Prop :=
  restoreAt t k = M k

/-- Invariant of the round-trip proof: key `k` is still untouched on the
option side — its `connection_options` binding is the initial one and it
appears in neither option snapshot dict. -/
def FRESHinv (M : PyMap) (t : TaskState) (k : Key) : Prop :=
  t.connection_options k = M k ∧
  lastLookup t.input_options k = none ∧
  k ∉ keysOf t.output_options

/-- Invariant of the frame proof: key `k` is untouched on both the option
and the data side. -/
def UNTinv (M D : PyMap) (t : TaskState) (k : Key) : Prop :=
  t.connection_options k = M k ∧
  t.data k = D k ∧
  lastLookup t.input_options k = none ∧
  k ∉ keysOf t.output_options ∧
  lastLookup t.input_data k = none ∧
  k ∉ keysOf t.output_data

/-- The key under which `DbPingHandlerTask.on_connected` reads the ping
interval from `session.data` (`DbSessionData.PING_INTERVAL`). -/
def PING_INTERVAL : Key := "ping_interval"

/-- Modelled from the spec: `DbPingHandler` (defined in
`DbSessionUtils`, not part of the sources at hand) is a background
keep-alive pinger.  For the task-level properties below only its identity
and whether it has been stopped and joined matter, so it is modelled as a
record of its construction interval and its `stopped`/`joined` flags;
construction-and-start yields both flags `false`. -/
structure PingerRec where
  interval : Int
  stopped : Bool
  joined : Bool
deriving DecidableEq

/-- The state of a `DbPingHandlerTask`: the base task state, the pool of
every pinger object constructed so far (so that a pinger that loses its
reference can still be observed), and `self._db_pinger` as an index into
that pool (`Option.none` = Python `None`). -/
structure PingTaskState where
  base : TaskState
  pingers : List PingerRec
  db_pinger : Option Nat

/-- Modelled from the spec: `pinger.stop(); pinger.join()` marks the
pinger at index `i` of the pool as stopped and joined. -/
def markStopJoin : List PingerRec → Nat → List PingerRec
  | [], _ => []
  | p :: rest, 0 => { p with stopped := true, joined := true } :: rest
  | p :: rest, Nat.succ i => p :: markStopJoin rest i

/-- `DbPingHandlerTask.reset`: run the base `reset`, then, when
`self._db_pinger` is not `None`, stop and join it.  The source does not
clear `self._db_pinger`, so the reference is kept. -/
def ping_reset (t : PingTaskState) : PingTaskState :=
  let b := reset t.base
  match t.db_pinger with
  | Option.none => { t with base := b }
  | some i => { t with base := b, pingers := markStopJoin t.pingers i }

/-- `DbPingHandlerTask.on_connected`: when `session.data` has a ping
interval (`session.has_data`, modelled as key membership per the spec's
SessionHandle contract) that is not `None` and compares `> 0`, construct
and start a `DbPingHandler` and store it in `self._db_pinger`.  A
non-numeric interval makes the Python comparison `interval > 0` raise a
`TypeError`, modelled as `Except.error`. -/
def on_connected (t : PingTaskState) : Except String PingTaskState :=
  match t.base.data PING_INTERVAL with
  | Option.none => Except.ok t
  | some PyVal.none => Except.ok t
  | some (PyVal.num n) =>
      if 0 < n then
        Except.ok
          { t with
              pingers := t.pingers ++ [{ interval := n, stopped := false, joined := false }]
              db_pinger := some t.pingers.length }
      else Except.ok t
  | some (PyVal.str _) => Except.error "TypeError"

/-- Whether an `on_connected` run completed without a Python exception. -/
def exceptIsOk : Except String PingTaskState → Bool
  | Except.ok _ => true
  | Except.error _ => false

/-- `true` on the `session.data` entry states for which `on_connected`
leaves pinging disabled: key absent, value `None`, or a number `≤ 0`. -/
def pingDisabled : Option PyVal → Bool
  | Option.none => true
  | some PyVal.none => true
  | some (PyVal.num n) => decide (n ≤ 0)
  | some (PyVal.str _) => false

/-- `true` on the ping-interval values the spec calls malformed:
non-numeric strings and negative numbers. -/
def malformedInterval : PyVal → Bool
  | PyVal.num n => decide (n < 0)
  | PyVal.str _ => true
  | PyVal.none => false

/-- Modelled from the spec: the phase of a `DbPingHandler`'s background
loop (`Idle → Running → StopRequested at the flag → Terminated`). -/
inductive PingerPhase where
  | idle | running | stopRequested | terminated
deriving DecidableEq

/-- Modelled from the spec: the joint state of one pinger's background
loop and the foreground `DbPingHandlerTask.reset` caller. `resetReturned`
records that the blocking `join()` inside `reset` has returned. -/
structure PingSys where
  phase : PingerPhase
  resetReturned : Bool
deriving DecidableEq

/-- Events of an interleaved execution: `start` begins the loop; `ping`
is one keep-alive query issued by the loop; `stop` is the foreground
`stop()` call inside `reset` (a no-op when already stopped); `wakeExit`
is the loop waking, observing the stop flag and exiting; `queryFail` is
the loop terminating silently on a failed keep-alive query; `join` is the
foreground `join()` call returning, which it can only do once the loop
has fully terminated (a blocking wait). -/
inductive PLabel where
  | start | ping | stop | wakeExit | queryFail | join
deriving DecidableEq

/-- Modelled from the spec: one interleaving step.  `none` means the
event cannot occur in that state (in particular `ping` can only occur
while the loop is running, and `join` can only complete once the loop has
terminated). -/
def pstep (s : PingSys) : PLabel → Option PingSys
  | PLabel.start =>
      if s.phase = PingerPhase.idle then some { s with phase := PingerPhase.running } else none
  | PLabel.ping =>
      if s.phase = PingerPhase.running then some s else none
  | PLabel.stop =>
      some (if s.phase = PingerPhase.running then { s with phase := PingerPhase.stopRequested } else s)
  | PLabel.wakeExit =>
      if s.phase = PingerPhase.stopRequested then some { s with phase := PingerPhase.terminated } else none
  | PLabel.queryFail =>
      if s.phase = PingerPhase.running then some { s with phase := PingerPhase.terminated } else none
  | PLabel.join =>
      if s.phase = PingerPhase.terminated then some { s with resetReturned := true } else none

/-- Run a whole sequence of events; `none` when some event was not
enabled at its turn. -/
def prun (s : PingSys) : List PLabel → Option PingSys
  | [] => some s
  | l :: ls => (pstep s l).bind (fun s2 => prun s2 ls)

/-! ## Concrete states used by counterexamples and witnesses -/

/-- Session state for the double-`define_option` run: `connection_options`
maps `opt` to `0` and `session.data` is empty. -/
def c1_start : TaskState := initTask (mapOf [("opt", PyVal.num 0)]) (mapOf [])

/-- `define_option("opt", 1); define_option("opt", 2); reset()` from
`c1_start`. -/
def c1_end : TaskState :=
  reset (define_option (define_option c1_start "opt" (PyVal.num 1)) "opt" (PyVal.num 2))

/-- Initial `connection_options` of the round-trip witness run. -/
def c2_M : PyMap := mapOf [("a", PyVal.num 1), ("b", PyVal.str "x")]

/-- Initial `session.data` of the round-trip witness run. -/
def c2_D : PyMap := mapOf [("d", PyVal.num 7)]

/-- A sequence of option calls on pairwise distinct keys. -/
def c2_calls : List Call :=
  [Call.defineO "a" (PyVal.num 9), Call.extract "b" PyVal.none,
   Call.defineO "c" (PyVal.str "new")]

/-- Task state after `define_data("d", 2)` on a session whose `data`
already maps `d` to `1`. -/
def c5_state : TaskState :=
  define_data (initTask (mapOf []) (mapOf [("d", PyVal.num 1)])) "d" (PyVal.num 2)

/-- A ping task on a session whose `data` maps the ping interval to the
string `"x"`. -/
def c6_t : PingTaskState :=
  { base := initTask (mapOf []) (mapOf [(PING_INTERVAL, PyVal.str "x")])
    pingers := []
    db_pinger := none }

/-- A ping task on a session whose `data` maps the ping interval to `5`. -/
def c4_start : PingTaskState :=
  { base := initTask (mapOf []) (mapOf [(PING_INTERVAL, PyVal.num 5)])
    pingers := []
    db_pinger := none }

/-- The state `on_connected` produces from `c4_start` (the error branch
is unreachable there). -/
def c4_mid : PingTaskState :=
  match on_connected c4_start with
  | Except.ok t => t
  | Except.error _ => c4_start

/-- A ping task that already holds a running pinger while the session
still asks for a positive ping interval. -/
def c10_t : PingTaskState :=
  { base := initTask (mapOf []) (mapOf [(PING_INTERVAL, PyVal.num 3)])
    pingers := [{ interval := 3, stopped := false, joined := false }]
    db_pinger := some 0 }

/-- A ping task whose session has no ping interval configured. -/
def c7_t : PingTaskState :=
  { base := initTask (mapOf [("a", PyVal.num 1)]) (mapOf [])
    pingers := []
    db_pinger := none }

/-- A fresh task on a session with one option and no data, used to
witness the `define_data`-then-`reset` property. -/
def c8_t : TaskState := initTask (mapOf [("a", PyVal.num 1)]) (mapOf [])

/-! ## Pointwise characterisation of the two `reset` loops -/

theorem popAll_apply (outs : List (Key × PyVal)) (m : PyMap) (k : Key) :
    popAll outs m k = if k ∈ keysOf outs then none else m k := by
  induction outs generalizing m with
  | nil => simp [popAll, keysOf]
  | cons kv rest ih =>
    have hstep : popAll (kv :: rest) m =
        popAll rest (if (m kv.1).isSome then mapRemove m kv.1 else m) := by
      simp [popAll]
    rw [hstep, ih]
    by_cases hk : k ∈ keysOf rest
    · simp [keysOf, List.mem_cons] at hk ⊢
      simp [hk]
    · by_cases he : kv.1 = k
      · subst he
        have hr : (if (m kv.1).isSome then mapRemove m kv.1 else m) kv.1 = none := by
          cases h : m kv.1 <;> simp [h, mapRemove]
        simp [keysOf, List.mem_cons] at hk ⊢
        simp [hk, hr]
      · have hr : (if (m kv.1).isSome then mapRemove m kv.1 else m) k = m k := by
          cases h : (m kv.1).isSome <;> simp [mapRemove, he, Ne.symm he]
        simp [keysOf, List.mem_cons] at hk ⊢
        simp [hk, Ne.symm he, hr]

theorem setAll_apply (ins : List (Key × PyVal)) (m : PyMap) (k : Key) :
    setAll ins m k = overlay (lastLookup ins k) (m k) := by
  induction ins generalizing m with
  | nil => simp [setAll, lastLookup, overlay]
  | cons kv rest ih =>
    have hstep : setAll (kv :: rest) m = setAll rest (mapSet m kv.1 kv.2) := by
      simp [setAll]
    rw [hstep, ih]
    cases h : lastLookup rest k with
    | some v => simp [lastLookup, h, overlay]
    | none =>
      by_cases he : kv.1 = k
      · subst he
        simp [lastLookup, h, overlay, mapSet]
      · simp [lastLookup, h, overlay, mapSet, he, Ne.symm he]

theorem reset_connection_options_apply (t : TaskState) (k : Key) :
    (reset t).connection_options k = restoreAt t k := by
  show setAll t.input_options (popAll t.output_options t.connection_options) k = _
  rw [setAll_apply, popAll_apply, restoreAt]

theorem reset_data_apply (t : TaskState) (k : Key) :
    (reset t).data k =
      overlay (lastLookup t.input_data k)
        (if k ∈ keysOf t.output_data then none else t.data k) := by
  show setAll t.input_data (popAll t.output_data t.data) k = _
  rw [setAll_apply, popAll_apply]

/-! ## Association-list (Python dict) lemmas -/

theorem lastLookup_dictSet_ne (l : List (Key × PyVal)) (k q : Key) (v : PyVal)
    (h : q ≠ k) : lastLookup (dictSet l k v) q = lastLookup l q := by
  induction l with
  | nil => simp [dictSet, lastLookup, Ne.symm h]
  | cons kv rest ih =>
    by_cases he : kv.1 = k
    · simp [dictSet, he, lastLookup, Ne.symm h]
    · simp [dictSet, he, lastLookup, ih]

theorem lastLookup_dictSet_of_none (l : List (Key × PyVal)) (k : Key) (v : PyVal)
    (h : lastLookup l k = none) : lastLookup (dictSet l k v) k = some v := by
  induction l with
  | nil => simp [dictSet, lastLookup]
  | cons kv rest ih =>
    by_cases he : kv.1 = k
    · exfalso
      cases hh : lastLookup rest k with
      | some w => simp [lastLookup, hh] at h
      | none => simp [lastLookup, hh, he] at h
    · have hr : lastLookup rest k = none := by
        cases hh : lastLookup rest k with
        | none => rfl
        | some w => simp [lastLookup, hh] at h
      simp [dictSet, he, lastLookup, ih hr]

theorem mem_keysOf_dictSet (l : List (Key × PyVal)) (k q : Key) (v : PyVal) :
    q ∈ keysOf (dictSet l k v) ↔ q = k ∨ q ∈ keysOf l := by
  induction l with
  | nil => simp [dictSet, keysOf]
  | cons kv rest ih =>
    by_cases he : kv.1 = k
    · subst he
      simp [dictSet, keysOf, List.mem_cons]
    · simp [dictSet, he, keysOf, List.mem_cons] at ih ⊢
      tauto

/-! ## Effect of one call at keys other than its own -/

theorem extract_option_ne (t : TaskState) (k : Key) (d : PyVal) (q : Key) (hq : q ≠ k) :
    ((extract_option t k d).2).connection_options q = t.connection_options q ∧
    lastLookup ((extract_option t k d).2).input_options q = lastLookup t.input_options q ∧
    ((extract_option t k d).2).output_options = t.output_options ∧
    ((extract_option t k d).2).data = t.data ∧
    ((extract_option t k d).2).input_data = t.input_data ∧
    ((extract_option t k d).2).output_data = t.output_data := by
  unfold extract_option
  cases h : t.connection_options k with
  | none => simp
  | some v => simp [mapRemove, hq, lastLookup_dictSet_ne _ _ _ _ hq]

theorem applyCall_ne (t : TaskState) (c : Call) (q : Key) (hq : q ≠ c.key) :
    (applyCall t c).connection_options q = t.connection_options q ∧
    (applyCall t c).data q = t.data q ∧
    lastLookup (applyCall t c).input_options q = lastLookup t.input_options q ∧
    (q ∈ keysOf (applyCall t c).output_options ↔ q ∈ keysOf t.output_options) ∧
    lastLookup (applyCall t c).input_data q = lastLookup t.input_data q ∧
    (q ∈ keysOf (applyCall t c).output_data ↔ q ∈ keysOf t.output_data) := by
  cases c with
  | extract k d =>
    have hqk : q ≠ k := hq
    obtain ⟨h1, h2, h3, h4, h5, h6⟩ := extract_option_ne t k d q hqk
    exact ⟨h1, by simp [applyCall, h4], h2, by simp [applyCall, h3], by simp [applyCall, h5],
      by simp [applyCall, h6]⟩
  | defineO k v =>
    have hqk : q ≠ k := hq
    obtain ⟨h1, h2, h3, h4, h5, h6⟩ := extract_option_ne t k PyVal.none q hqk
    simp only [applyCall, define_option]
    refine ⟨?_, ?_, ?_, ?_, ?_, ?_⟩
    · simp [mapSet, hqk, h1]
    · exact congrFun h4 q
    · simpa using h2
    · show q ∈ keysOf (dictSet ((extract_option t k PyVal.none).2).output_options k v) ↔ _
      rw [mem_keysOf_dictSet, h3]
      simp [hqk]
    · simp [h5]
    · simp [h6]
  | defineD k v =>
    have hqk : q ≠ k := hq
    cases h : t.data k with
    | none =>
      simp [applyCall, define_data, h, mapSet, hqk, mem_keysOf_dictSet]
    | some old =>
      simp [applyCall, define_data, h, mapSet, hqk, mem_keysOf_dictSet,
        lastLookup_dictSet_ne _ _ _ _ hqk]

/-! ## The round-trip invariant -/

theorem restoreAt_congr (t t2 : TaskState) (k : Key)
    (h1 : t2.connection_options k = t.connection_options k)
    (h2 : lastLookup t2.input_options k = lastLookup t.input_options k)
    (h3 : k ∈ keysOf t2.output_options ↔ k ∈ keysOf t.output_options) :
    restoreAt t2 k = restoreAt t k := by
  unfold restoreAt
  rw [h1, h2]
  by_cases hm : k ∈ keysOf t.output_options
  · rw [if_pos hm, if_pos (h3.mpr hm)]
  · rw [if_neg hm, if_neg (fun hh => hm (h3.mp hh))]

theorem applyCall_inv_self (M : PyMap) (t : TaskState) (c : Call)
    (hfresh : FRESHinv M t c.key) : RESinv M (applyCall t c) c.key := by
  obtain ⟨hconn, hin, hout⟩ := hfresh
  cases c with
  | extract k d =>
    simp only [Call.key] at hconn hin hout
    cases h : t.connection_options k with
    | none =>
      have ht : applyCall t (Call.extract k d) = t := by
        simp [applyCall, extract_option, h]
      rw [ht]
      unfold RESinv restoreAt
      simp only [Call.key]
      rw [hin, if_neg hout]
      simpa [overlay] using hconn
    | some v =>
      unfold RESinv restoreAt
      simp only [applyCall, extract_option, h, Call.key]
      have hlast : lastLookup (dictSet t.input_options k v) k = some v :=
        lastLookup_dictSet_of_none _ _ _ hin
      simp only [hlast, overlay]
      rw [← hconn, h]
  | defineO k v =>
    simp only [Call.key] at hconn hin hout
    unfold RESinv restoreAt
    simp only [applyCall, define_option, Call.key]
    have hmem : k ∈ keysOf (dictSet ((extract_option t k PyVal.none).2).output_options k v) :=
      (mem_keysOf_dictSet _ _ _ _).mpr (Or.inl rfl)
    cases h : t.connection_options k with
    | none =>
      have ht : (extract_option t k PyVal.none).2 = t := by
        simp [extract_option, h]
      rw [ht] at hmem ⊢
      simp only [hmem, if_pos, hin, overlay]
      rw [← hconn, h]
    | some v0 =>
      have ht : (extract_option t k PyVal.none).2 =
          { t with
              connection_options := mapRemove t.connection_options k
              input_options := dictSet t.input_options k v0 } := by
        simp [extract_option, h]
      rw [ht] at hmem ⊢
      have hlast : lastLookup (dictSet t.input_options k v0) k = some v0 :=
        lastLookup_dictSet_of_none _ _ _ hin
      simp only [hmem, if_pos, hlast, overlay]
      rw [← hconn, h]
  | defineD k v =>
    simp only [Call.key] at hconn hin hout
    have ha : restoreAt (applyCall t (Call.defineD k v)) k = restoreAt t k := by
      cases h : t.data k with
      | none => simp [applyCall, define_data, h, restoreAt]
      | some old => simp [applyCall, define_data, h, restoreAt]
    unfold RESinv
    simp only [Call.key]
    rw [ha]
    unfold restoreAt
    rw [hin, if_neg hout]
    simpa [overlay] using hconn

theorem applyCall_res_preserved (M : PyMap) (t : TaskState) (c : Call) (q : Key)
    (hq : q ≠ c.key) (hres : RESinv M t q) : RESinv M (applyCall t c) q := by
  obtain ⟨h1, _, h3, h4, _, _⟩ := applyCall_ne t c q hq
  unfold RESinv
  rw [restoreAt_congr t (applyCall t c) q h1 h3 h4]
  exact hres

theorem applyCall_fresh_preserved (M : PyMap) (t : TaskState) (c : Call) (q : Key)
    (hq : q ≠ c.key) (hfresh : FRESHinv M t q) : FRESHinv M (applyCall t c) q := by
  obtain ⟨h1, _, h3, h4, _, _⟩ := applyCall_ne t c q hq
  obtain ⟨f1, f2, f3⟩ := hfresh
  exact ⟨h1.trans f1, h3.trans f2, fun hh => f3 (h4.mp hh)⟩

theorem applyCalls_inv (M : PyMap) (cs : List Call) :
    ∀ t : TaskState, (cs.map Call.key).Nodup →
      (∀ k, RESinv M t k) →
      (∀ k, k ∈ cs.map Call.key → FRESHinv M t k) →
      ∀ k, RESinv M (applyCalls t cs) k := by
  induction cs with
  | nil =>
    intro t _ hres _ k
    exact hres k
  | cons c rest ih =>
    intro t hnd hres hfresh k
    have hfc : FRESHinv M t c.key := hfresh c.key (by simp)
    have hnd2 : (rest.map Call.key).Nodup := by
      rw [List.map_cons, List.nodup_cons] at hnd
      exact hnd.2
    have hcnotin : c.key ∉ rest.map Call.key := by
      rw [List.map_cons, List.nodup_cons] at hnd
      exact hnd.1
    have hrw : applyCalls t (c :: rest) = applyCalls (applyCall t c) rest := by
      simp [applyCalls]
    rw [hrw]
    refine ih (applyCall t c) hnd2 ?_ ?_ k
    · intro q
      by_cases hq : q = c.key
      · rw [hq]
        exact applyCall_inv_self M t c hfc
      · exact applyCall_res_preserved M t c q hq (hres q)
    · intro q hqmem
      have hq : q ≠ c.key := fun h => hcnotin (h ▸ hqmem)
      exact applyCall_fresh_preserved M t c q hq (hfresh q (by simp [hqmem]))



/-! ## Frame: keys no call touches -/

theorem applyCall_unt_preserved (M D : PyMap) (t : TaskState) (c : Call) (q : Key)
    (hq : q ≠ c.key) (h : UNTinv M D t q) : UNTinv M D (applyCall t c) q := by
  obtain ⟨h1, h2, h3, h4, h5, h6⟩ := applyCall_ne t c q hq
  obtain ⟨u1, u2, u3, u4, u5, u6⟩ := h
  exact ⟨h1.trans u1, h2.trans u2, h3.trans u3, fun hh => u4 (h4.mp hh),
    h5.trans u5, fun hh => u6 (h6.mp hh)⟩

theorem applyCalls_unt (M D : PyMap) (k : Key) (cs : List Call) :
    ∀ t : TaskState, avoids cs k = true → UNTinv M D t k →
      UNTinv M D (applyCalls t cs) k := by
  induction cs with
  | nil =>
    intro t _ h
    exact h
  | cons c rest ih =>
    intro t hav h
    have hne : Call.key c ≠ k := by
      simp [avoids, List.all_cons, bne_iff_ne] at hav
      exact hav.1
    have hav2 : avoids rest k = true := by
      simp [avoids, List.all_cons] at hav ⊢
      intro x hx
      exact hav.2 x hx
    have hrw : applyCalls t (c :: rest) = applyCalls (applyCall t c) rest := by
      simp [applyCalls]
    rw [hrw]
    exact ih (applyCall t c) hav2 (applyCall_unt_preserved M D t c k (Ne.symm hne) h)

theorem reset_unt (M D : PyMap) (t : TaskState) (k : Key) (h : UNTinv M D t k) :
    (reset t).connection_options k = t.connection_options k ∧
    (reset t).data k = t.data k := by
  obtain ⟨u1, u2, u3, u4, u5, u6⟩ := h
  constructor
  · rw [reset_connection_options_apply]
    unfold restoreAt
    rw [u3, if_neg u4]
    simp [overlay]
  · rw [reset_data_apply]
    rw [u5, if_neg u6]
    simp [overlay]

/-! ## Pinger-pool lemmas -/

theorem markStopJoin_get_ne (l : List PingerRec) (i j : Nat) (h : i ≠ j) :
    (markStopJoin l j)[i]? = l[i]? := by
  induction l generalizing i j with
  | nil => simp [markStopJoin]
  | cons p rest ih =>
    cases j with
    | zero =>
      cases i with
      | zero => exact absurd rfl h
      | succ i2 => simp [markStopJoin]
    | succ j2 =>
      cases i with
      | zero => simp [markStopJoin]
      | succ i2 => simp [markStopJoin, ih i2 j2 (by omega)]

theorem markStopJoin_get_self (l : List PingerRec) (j : Nat) (p : PingerRec)
    (h : l[j]? = some p) :
    (markStopJoin l j)[j]? = some { p with stopped := true, joined := true } := by
  induction l generalizing j with
  | nil => simp at h
  | cons q rest ih =>
    cases j with
    | zero =>
      simp at h
      subst h
      simp [markStopJoin]
    | succ j2 =>
      simp [markStopJoin] at h ⊢
      exact ih j2 h

theorem get_append_singleton (l : List PingerRec) (x : PingerRec) (i : Nat)
    (h : i < l.length) : (l ++ [x])[i]? = l[i]? := by
  rw [List.getElem?_append, if_pos h]

/-! ## Interleaving lemmas for the pinger loop -/

theorem prun_append (s : PingSys) (l1 l2 : List PLabel) :
    prun s (l1 ++ l2) = (prun s l1).bind (fun s2 => prun s2 l2) := by
  induction l1 generalizing s with
  | nil => simp [prun]
  | cons a l ih =>
    show prun s (a :: (l ++ l2)) = _
    simp only [prun]
    cases pstep s a with
    | none => simp
    | some s2 => simp [ih]

theorem prun_terminated_no_ping (post : List PLabel) :
    ∀ s s2 : PingSys, s.phase = PingerPhase.terminated →
      prun s post = some s2 → PLabel.ping ∉ post := by
  induction post with
  | nil =>
    intro s s2 _ _
    simp
  | cons a ls ih =>
    intro s s2 hterm hrun
    simp only [prun] at hrun
    obtain ⟨sm, hstep, hrest⟩ := Option.bind_eq_some.mp hrun
    have hmid : a ≠ PLabel.ping ∧ sm.phase = PingerPhase.terminated := by
      cases a with
      | start => simp [pstep, hterm] at hstep
      | ping => simp [pstep, hterm] at hstep
      | stop =>
        refine ⟨by simp, ?_⟩
        simp [pstep, hterm] at hstep
        rw [← hstep]
        exact hterm
      | wakeExit => simp [pstep, hterm] at hstep
      | queryFail => simp [pstep, hterm] at hstep
      | join =>
        refine ⟨by simp, ?_⟩
        simp [pstep, hterm] at hstep
        rw [← hstep]
    rw [List.mem_cons]
    push_neg
    exact ⟨fun hh => hmid.1 hh.symm, ih sm s2 hmid.2 hrest⟩

/-! ## Claim theorems -/

/-- C1: the claim states that after `define_option(k, v1)`,
`define_option(k, v2)` and `reset()`, `connection_options[k]` is back to
its original pre-task value `v0`.  The code disagrees: `extract_option`
overwrites `_input_options[k]` on the second call, so `reset` restores
the intermediate value `v1`.  Evaluated at the failing input
(`connection_options` maps `opt` to `0`, `v1 = 1`, `v2 = 2`): the final
value is `1`, not the original `0`. -/
theorem define_option_twice_reset_restores_intermediate :
    c1_end.connection_options "opt" = some (PyVal.num 1) ∧
    c1_end.connection_options "opt" ≠ some (PyVal.num 0) := by
  constructor
  · rfl
  · decide

/-- C2: for every initial `connection_options` content, every sequence of
`extract_option`/`define_option` calls whose keys are pairwise distinct,
followed by `reset()`, leaves `connection_options` with exactly the
initial content — same keys, same values, no extras, no omissions. -/
theorem reset_roundtrip (M D : PyMap) (cs : List Call)
    (hopt : cs.all Call.isOpt = true)
    (hnd : (cs.map Call.key).Nodup) :
    (reset (applyCalls (initTask M D) cs)).connection_options = M := by
  have _ := hopt
  funext k
  rw [reset_connection_options_apply]
  refine applyCalls_inv M cs (initTask M D) hnd ?_ ?_ k
  · intro q
    simp [RESinv, restoreAt, initTask, lastLookup, keysOf, overlay]
  · intro q _
    simp [FRESHinv, initTask, lastLookup, keysOf]

theorem reset_roundtrip_witness :
    (c2_calls.all Call.isOpt = true) ∧
    (c2_calls.map Call.key).Nodup ∧
    (reset (applyCalls (initTask c2_M c2_D) c2_calls)).connection_options = c2_M :=
  ⟨by decide, by decide, reset_roundtrip c2_M c2_D c2_calls (by decide) (by decide)⟩

/-- C3: once the `join()` called inside `DbPingHandlerTask.reset` has
returned (which it can only do after the pinger loop has fully
terminated), no keep-alive `ping` event can occur in any continuation of
the execution: no ping query executes after `reset()` completes. -/
theorem no_ping_after_reset_join (s0 s1 : PingSys) (pre post : List PLabel)
    (h : prun s0 (pre ++ PLabel.join :: post) = some s1) :
    PLabel.ping ∉ post := by
  rw [prun_append] at h
  obtain ⟨s2, _, hrest⟩ := Option.bind_eq_some.mp h
  simp only [prun] at hrest
  obtain ⟨s3, hjoin, hpost⟩ := Option.bind_eq_some.mp hrest
  have hterm : s2.phase = PingerPhase.terminated := by
    by_cases hp : s2.phase = PingerPhase.terminated
    · exact hp
    · simp [pstep, hp] at hjoin
  have hterm3 : s3.phase = PingerPhase.terminated := by
    simp [pstep, hterm] at hjoin
    rw [← hjoin]
  exact prun_terminated_no_ping post s3 s1 hterm3 hpost

theorem no_ping_after_reset_join_witness :
    prun { phase := PingerPhase.idle, resetReturned := false }
        ([PLabel.start, PLabel.ping, PLabel.stop, PLabel.wakeExit] ++
          PLabel.join :: [PLabel.stop]) =
      some { phase := PingerPhase.terminated, resetReturned := true } ∧
    PLabel.ping ∉ [PLabel.stop] :=
  ⟨by decide,
    no_ping_after_reset_join { phase := PingerPhase.idle, resetReturned := false }
      { phase := PingerPhase.terminated, resetReturned := true }
      [PLabel.start, PLabel.ping, PLabel.stop, PLabel.wakeExit] [PLabel.stop] (by decide)⟩

/-- C4 (counterexample): the claim states that after `reset()` the
`_db_pinger` reference has been cleared back to `None`.  On the concrete
run (interval 5, `on_connected`, then `reset`) the reference still points
at pinger 0 after `reset` returns: the source never assigns
`self._db_pinger = None`. -/
theorem ping_reset_reference_not_cleared :
    exceptIsOk (on_connected c4_start) = true ∧
    c4_mid.db_pinger = some 0 ∧
    (ping_reset c4_mid).db_pinger = some 0 ∧
    (ping_reset c4_mid).db_pinger ≠ none := by
  refine ⟨rfl, rfl, rfl, ?_⟩
  decide

/-- C4 (amended): after `reset()` the referenced pinger has been stopped
and joined, and the reference is *kept*, still naming that pinger — it is
not cleared back to null. -/
theorem ping_reset_stops_joins_keeps_reference (t : PingTaskState) (i : Nat)
    (p : PingerRec) (hi : t.db_pinger = some i) (hp : t.pingers[i]? = some p) :
    (ping_reset t).db_pinger = some i ∧
    (ping_reset t).pingers[i]? = some { p with stopped := true, joined := true } := by
  constructor
  · simp [ping_reset, hi]
  · simp only [ping_reset, hi]
    exact markStopJoin_get_self t.pingers i p hp

theorem ping_reset_stops_joins_keeps_reference_witness :
    c4_mid.db_pinger = some 0 ∧
    c4_mid.pingers[0]? = some { interval := 5, stopped := false, joined := false } ∧
    (ping_reset c4_mid).db_pinger = some 0 ∧
    (ping_reset c4_mid).pingers[0]? = some { interval := 5, stopped := true, joined := true } :=
  ⟨rfl, rfl,
    (ping_reset_stops_joins_keeps_reference c4_mid 0
      { interval := 5, stopped := false, joined := false } rfl rfl).1,
    (ping_reset_stops_joins_keeps_reference c4_mid 0
      { interval := 5, stopped := false, joined := false } rfl rfl).2⟩

/-- C5 (counterexample): the claim states that all four snapshot maps are
empty after `reset()`.  On the concrete run (`define_data("d", 2)` over a
session whose `data` maps `d` to `1`, then `reset()`), `_input_data` and
`_output_data` are both non-empty after `reset` returns. -/
theorem reset_data_snapshots_not_cleared :
    (reset c5_state).input_data = [("d", PyVal.num 1)] ∧
    (reset c5_state).input_data ≠ [] ∧
    (reset c5_state).output_data = [("d", PyVal.num 2)] ∧
    (reset c5_state).output_data ≠ [] := by
  refine ⟨?_, ?_, ?_, ?_⟩ <;> decide

/-- C5 (amended): after `reset()` the option snapshots `_input_options`
and `_output_options` are empty, while the data snapshots `_input_data`
and `_output_data` are not cleared: they keep exactly the entries they
had before the call. -/
theorem reset_clears_only_option_snapshots (t : TaskState) :
    (reset t).input_options = [] ∧
    (reset t).output_options = [] ∧
    (reset t).input_data = t.input_data ∧
    (reset t).output_data = t.output_data :=
  ⟨rfl, rfl, rfl, rfl⟩

/-- C6 (counterexample): the claim states that a malformed (non-numeric)
ping interval raises no error and leaves the pinger null.  With
`session.data[PING_INTERVAL] = "x"` the comparison `interval > 0` raises
a `TypeError`, so `on_connected` does not complete normally. -/
theorem on_connected_nonnumeric_interval_raises :
    on_connected c6_t = Except.error "TypeError" ∧
    exceptIsOk (on_connected c6_t) = false :=
  ⟨rfl, rfl⟩

/-- C6 (amended): a *negative numeric* ping interval is treated as
pinging disabled (`on_connected` raises nothing and leaves the task
unchanged), but a *non-numeric* interval is not silently degraded: the
comparison `interval > 0` raises a `TypeError`. -/
theorem on_connected_malformed_interval (t : PingTaskState) (v : PyVal)
    (hv : t.base.data PING_INTERVAL = some v) (hm : malformedInterval v = true) :
    on_connected t =
      (match v with
        | PyVal.str _ => Except.error "TypeError"
        | _ => Except.ok t) := by
  cases v with
  | none => simp [malformedInterval] at hm
  | num n =>
    have hn : n < 0 := by simpa [malformedInterval] using hm
    simp only [on_connected, hv]
    rw [if_neg (by omega)]
  | str a => simp [on_connected, hv]

theorem on_connected_malformed_interval_witness :
    c6_t.base.data PING_INTERVAL = some (PyVal.str "x") ∧
    malformedInterval (PyVal.str "x") = true ∧
    on_connected c6_t = Except.error "TypeError" :=
  ⟨rfl, rfl, on_connected_malformed_interval c6_t (PyVal.str "x") rfl rfl⟩

/-- C7: when the ping interval entry is absent, `None`, zero or negative,
`on_connected` returns the task unchanged — no pinger is constructed or
started, the reference stays null — and a subsequent `reset()` touches no
pinger (the pool is unchanged) and leaves the reference null. -/
theorem on_connected_disabled_interval (t : PingTaskState)
    (hnull : t.db_pinger = none)
    (hdis : pingDisabled (t.base.data PING_INTERVAL) = true) :
    on_connected t = Except.ok t ∧
    (ping_reset t).pingers = t.pingers ∧
    (ping_reset t).db_pinger = none := by
  refine ⟨?_, ?_, ?_⟩
  · cases hd : t.base.data PING_INTERVAL with
    | none => simp [on_connected, hd]
    | some v =>
      cases v with
      | none => simp [on_connected, hd]
      | num n =>
        have hn : n ≤ 0 := by
          rw [hd] at hdis
          simpa [pingDisabled] using hdis
        simp only [on_connected, hd]
        rw [if_neg (by omega)]
      | str a =>
        rw [hd] at hdis
        simp [pingDisabled] at hdis
  · simp [ping_reset, hnull]
  · simp [ping_reset, hnull]

theorem on_connected_disabled_interval_witness :
    c7_t.db_pinger = none ∧
    pingDisabled (c7_t.base.data PING_INTERVAL) = true ∧
    (on_connected c7_t = Except.ok c7_t ∧
      (ping_reset c7_t).pingers = c7_t.pingers ∧
      (ping_reset c7_t).db_pinger = none) :=
  ⟨rfl, rfl, on_connected_disabled_interval c7_t rfl rfl⟩

/-- Helper for C8: once `k` is recorded in `_output_data` and absent from
`_input_data`, further calls that avoid `k` keep it that way. -/
theorem applyCalls_data_mark (k : Key) (cs : List Call) :
    ∀ t : TaskState, avoids cs k = true →
      lastLookup t.input_data k = none → k ∈ keysOf t.output_data →
      lastLookup (applyCalls t cs).input_data k = none ∧
        k ∈ keysOf (applyCalls t cs).output_data := by
  induction cs with
  | nil =>
    intro t _ h1 h2
    exact ⟨h1, h2⟩
  | cons c rest ih =>
    intro t hav h1 h2
    have hne : Call.key c ≠ k := by
      simp [avoids, List.all_cons, bne_iff_ne] at hav
      exact hav.1
    have hav2 : avoids rest k = true := by
      simp [avoids, List.all_cons] at hav ⊢
      intro x hx
      exact hav.2 x hx
    obtain ⟨_, _, _, _, a5, a6⟩ := applyCall_ne t c k (Ne.symm hne)
    have hrw : applyCalls t (c :: rest) = applyCalls (applyCall t c) rest := by
      simp [applyCalls]
    rw [hrw]
    exact ih (applyCall t c) hav2 (a5.trans h1) (a6.mpr h2)

/-- C8: when `k` is absent from `session.data` (and was never archived in
`_input_data`), `define_data(k, v)` followed by any further calls that do
not use `k` and then `reset()` leaves `k` absent from `session.data`
again — removed, not set to a default. -/
theorem define_data_then_reset_absent (t : TaskState) (k : Key) (v : PyVal)
    (cs : List Call) (hd : t.data k = none)
    (hin : lastLookup t.input_data k = none)
    (hav : avoids cs k = true) :
    (reset (applyCalls (define_data t k v) cs)).data k = none := by
  have hin2 : lastLookup (define_data t k v).input_data k = none := by
    simp only [define_data, hd]
    exact hin
  have hout2 : k ∈ keysOf (define_data t k v).output_data := by
    simp only [define_data, hd]
    exact (mem_keysOf_dictSet _ _ _ _).mpr (Or.inl rfl)
  obtain ⟨m1, m2⟩ := applyCalls_data_mark k cs (define_data t k v) hav hin2 hout2
  rw [reset_data_apply, m1, if_pos m2]
  simp [overlay]

theorem define_data_then_reset_absent_witness :
    c8_t.data "k" = none ∧
    lastLookup c8_t.input_data "k" = none ∧
    avoids [Call.defineO "a" (PyVal.num 5)] "k" = true ∧
    (reset (applyCalls (define_data c8_t "k" (PyVal.num 2))
        [Call.defineO "a" (PyVal.num 5)])).data "k" = none :=
  ⟨rfl, rfl, by decide,
    define_data_then_reset_absent c8_t "k" (PyVal.num 2)
      [Call.defineO "a" (PyVal.num 5)] rfl rfl (by decide)⟩

/-- C9: a key that no `extract_option`/`define_option`/`define_data` call
of the task ever used is left alone by `reset()`: its binding in
`connection_options` and in `session.data` is unchanged across `reset`,
and equal to its initial pre-task binding (present or absent alike). -/
theorem reset_frame_untouched (M D : PyMap) (cs : List Call) (k : Key)
    (hav : avoids cs k = true) :
    (reset (applyCalls (initTask M D) cs)).connection_options k
      = (applyCalls (initTask M D) cs).connection_options k ∧
    (reset (applyCalls (initTask M D) cs)).data k
      = (applyCalls (initTask M D) cs).data k ∧
    (reset (applyCalls (initTask M D) cs)).connection_options k = M k ∧
    (reset (applyCalls (initTask M D) cs)).data k = D k := by
  have hunt : UNTinv M D (applyCalls (initTask M D) cs) k := by
    refine applyCalls_unt M D k cs (initTask M D) hav ?_
    simp [UNTinv, initTask, lastLookup, keysOf]
  obtain ⟨hc, hdta⟩ := reset_unt M D (applyCalls (initTask M D) cs) k hunt
  exact ⟨hc, hdta, hc.trans hunt.1, hdta.trans hunt.2.1⟩

theorem reset_frame_untouched_witness :
    avoids c2_calls "z" = true ∧
    ((reset (applyCalls (initTask c2_M c2_D) c2_calls)).connection_options "z"
        = (applyCalls (initTask c2_M c2_D) c2_calls).connection_options "z" ∧
      (reset (applyCalls (initTask c2_M c2_D) c2_calls)).data "z"
        = (applyCalls (initTask c2_M c2_D) c2_calls).data "z" ∧
      (reset (applyCalls (initTask c2_M c2_D) c2_calls)).connection_options "z" = c2_M "z" ∧
      (reset (applyCalls (initTask c2_M c2_D) c2_calls)).data "z" = c2_D "z") :=
  ⟨by decide, reset_frame_untouched c2_M c2_D c2_calls "z" (by decide)⟩

/-- C10: when `on_connected` runs while `_db_pinger` already references a
pinger and the session asks for a positive interval, the reference is
overwritten with a freshly constructed and started pinger (a new pool
entry with both flags clear); the previously referenced pinger is not
touched then, and a later `reset()` stops and joins only the currently
referenced pinger, leaving the orphaned one neither stopped nor joined. -/
theorem on_connected_overwrites_and_orphans_pinger (t : PingTaskState) (i : Nat)
    (p : PingerRec) (n : Int)
    (hi : t.db_pinger = some i) (hp : t.pingers[i]? = some p)
    (hlen : i < t.pingers.length)
    (hn : t.base.data PING_INTERVAL = some (PyVal.num n)) (hpos : 0 < n) :
    on_connected t = Except.ok
      { t with
          pingers := t.pingers ++ [{ interval := n, stopped := false, joined := false }]
          db_pinger := some t.pingers.length } ∧
    t.pingers.length ≠ i ∧
    (t.pingers ++ [{ interval := n, stopped := false, joined := false }])[i]? = some p ∧
    (ping_reset
      { t with
          pingers := t.pingers ++ [{ interval := n, stopped := false, joined := false }]
          db_pinger := some t.pingers.length }).pingers[i]? = some p := by
  have _ := hi
  refine ⟨?_, by omega, ?_, ?_⟩
  · simp only [on_connected, hn]
    rw [if_pos hpos]
  · rw [get_append_singleton _ _ _ hlen]
    exact hp
  · simp only [ping_reset]
    rw [markStopJoin_get_ne _ i t.pingers.length (by omega),
      get_append_singleton _ _ _ hlen]
    exact hp

theorem on_connected_overwrites_and_orphans_pinger_witness :
    c10_t.db_pinger = some 0 ∧
    c10_t.pingers[0]? = some { interval := 3, stopped := false, joined := false } ∧
    0 < c10_t.pingers.length ∧
    c10_t.base.data PING_INTERVAL = some (PyVal.num 3) ∧
    (0 : Int) < 3 ∧
    (on_connected c10_t = Except.ok
        { c10_t with
            pingers := c10_t.pingers ++ [{ interval := 3, stopped := false, joined := false }]
            db_pinger := some c10_t.pingers.length } ∧
      c10_t.pingers.length ≠ 0 ∧
      (c10_t.pingers ++ [{ interval := 3, stopped := false, joined := false }])[0]?
        = some { interval := 3, stopped := false, joined := false } ∧
      (ping_reset
        { c10_t with
            pingers := c10_t.pingers ++ [{ interval := 3, stopped := false, joined := false }]
            db_pinger := some c10_t.pingers.length }).pingers[0]?
        = some { interval := 3, stopped := false, joined := false }) :=
  ⟨rfl, rfl, by decide, rfl, by decide,
    on_connected_overwrites_and_orphans_pinger c10_t 0
      { interval := 3, stopped := false, joined := false } 3 rfl rfl (by decide) rfl
      (by decide)⟩
